import Mathlib

/-!
Verification of the logo-candidate discovery pipeline in
`fetch-logos-only.py` (VoteWithYourWallet).

The pure decision logic of the script is embedded below:
string helpers mirroring Python's `in`, `.endswith`, `.lower`,
`.replace(old, '')` (on ASCII data), the classifier
`LogoFetcher.is_logo_file`, the metadata acceptance rule of
`LogoFetcher.get_logo_info`, the filename sanitizer
`LogoFetcher.sanitize_filename`, the name-variant resolution and the
reference-scanning loop of `LogoFetcher.find_company_logos`, and an
effect-trace model of `main`'s zero-argument branch.
-/

/-- Does `needle` occur at the head of `haystack`?  (List-level helper for
Python's substring test.) -/
def firstMatches : List Char → List Char → Bool
  | [], _ => true
  | _ :: _, [] => false
  | a :: as, b :: bs => a == b && firstMatches as bs

/-- Does `needle` occur anywhere inside `haystack`?  (List-level helper.) -/
def substrOf (needle : List Char) : List Char → Bool
  | [] => needle.isEmpty
  | b :: bs => firstMatches needle (b :: bs) || substrOf needle bs

/-- Python's `needle in haystack` substring test on strings. -/
def containsSubstr (haystack needle : String) : Bool :=
  substrOf needle.data haystack.data

/-- Python's `s.endswith(suffix)` on strings. -/
def strEndsWith (s suffix : String) : Bool :=
  firstMatches suffix.data.reverse s.data.reverse

/-- Python's `s.lower()` restricted to ASCII data (character-wise lowercasing). -/
def lowerStr (s : String) : String :=
  String.mk (s.data.map Char.toLower)

/-- The allow-list of `LogoFetcher.is_logo_file` (source lines 51-55). -/
def logo_keywords : List String :=
  ["logo", "wordmark", "emblem", "symbol", "brand",
   "trademark", "corporate", "company_logo", "logotype",
   "mark", "insignia"]

/-- The deny-list of `LogoFetcher.is_logo_file` (source lines 63-66). -/
def skip_keywords : List String :=
  ["commons-logo", "wiki", "wikidata", "wikimedia",
   "edit-icon", "ambox", "merge", "disambig"]

/-- Embeds `LogoFetcher.is_logo_file` (source lines 46-70): the title, lowercased,
must contain an allow-keyword, end in `.png` or `.svg`, and contain no
deny-keyword. -/
def is_logo_file (filename : String) : Bool :=
  let filename_lower := lowerStr filename
  let has_logo_keyword := logo_keywords.any (fun k => containsSubstr filename_lower k)
  let is_png_svg := strEndsWith filename_lower ".png" || strEndsWith filename_lower ".svg"
  let has_skip_keyword := skip_keywords.any (fun k => containsSubstr filename_lower k)
  has_logo_keyword && is_png_svg && !has_skip_keyword


/-- One `imageinfo` record of the Commons metadata query: resolved URL,
pixel width, pixel height, MIME type string, byte size (source lines 128-141). -/
structure ImageInfo where
  url : String
  width : Nat
  height : Nat
  mime : String
  byteSize : Nat
deriving DecidableEq, Repr

/-- An accepted logo record built by `get_logo_info` (source lines 136-143). -/
structure LogoCandidate where
  url : String
  width : Nat
  height : Nat
  mime : String
  byteSize : Nat
  filename : String
deriving DecidableEq, Repr

/-- The acceptance test of `get_logo_info` (source line 135):
`'png' in mime_type or ('svg' in mime_type and width >= 100)`. -/
def acceptImageInfo (ii : ImageInfo) : Bool :=
  containsSubstr ii.mime "png" || (containsSubstr ii.mime "svg" && decide (100 ≤ ii.width))

/-- Python's `title.replace("File:", "")` (source line 142): removes every
non-overlapping occurrence of `File:`, scanning left to right. -/
def removeFileTokens : List Char → List Char
  | 'F' :: 'i' :: 'l' :: 'e' :: ':' :: rest => removeFileTokens rest
  | c :: rest => c :: removeFileTokens rest
  | [] => []

/-- Embeds `LogoFetcher.get_logo_info` (source lines 102-148), with the network
response abstracted as the list of returned pages, each page carrying its
(possibly empty) `imageinfo` list.  The loop takes the first page whose head
record passes `acceptImageInfo` and builds the candidate from it; if no page
qualifies the function returns `none` (as does the Python `return None`). -/
def get_logo_info (file_title : String) : List (List ImageInfo) → Option LogoCandidate
  | [] => none
  | page :: rest =>
    match page with
    | [] => get_logo_info file_title rest
    | ii :: _ =>
      if acceptImageInfo ii then
        some { url := ii.url, width := ii.width, height := ii.height,
               mime := ii.mime, byteSize := ii.byteSize,
               filename := String.mk (removeFileTokens file_title.data) }
      else get_logo_info file_title rest


/-- A word character of Python's regex `\w`, on ASCII data:
a letter, a digit or an underscore. -/
def isWordChar (c : Char) : Bool :=
  c.isAlpha || c.isDigit || c == '_'

/-- A whitespace character of Python's regex `\s`, on ASCII data. -/
def isSpaceChar (c : Char) : Bool :=
  c == ' ' || c == '\t' || c == '\n' || c == '\r' || c == '\x0b' || c == '\x0c'

/-- A character matched by the second regex `[-\s]+` of `sanitize_filename`. -/
def isDashSpace (c : Char) : Bool :=
  c == '-' || isSpaceChar c

/-- Replace each maximal run of dash/space characters by a single
underscore: the effect of `re.sub(r'[-\s]+', '_', s)` on a character list.
The flag records whether the previous character was part of such a run. -/
def collapseRuns (inRun : Bool) : List Char → List Char
  | [] => []
  | c :: rest =>
    if isDashSpace c then
      if inRun then collapseRuns true rest
      else '_' :: collapseRuns true rest
    else c :: collapseRuns false rest

/-- Embeds `LogoFetcher.sanitize_filename` (source lines 39-44):
drop every character outside `[\w\s-]`, collapse dash/space runs to `_`,
truncate to 50 characters. -/
def sanitize_filename (name : String) : String :=
  let step1 := name.data.filter (fun c => isWordChar c || isSpaceChar c || c == '-')
  let step2 := collapseRuns false step1
  String.mk (step2.take 50)


/-- The ordered variant list of `find_company_logos` (source lines 156-161). -/
def search_variations (company_name : String) : List String :=
  [company_name,
   company_name ++ ", Inc.",
   company_name ++ " Inc.",
   "The " ++ company_name ++ " Company"]

/-- The resolution loop of `find_company_logos` (source lines 163-168),
with the article-existence check abstracted as `ex`.  Returns the first
variant that exists together with the list of variants actually tested
(the loop breaks as soon as a variant exists). -/
def tryVariations (ex : String → Bool) : List String → Option String × List String
  | [] => (none, [])
  | v :: rest =>
    if ex v then (some v, [v])
    else
      let p := tryVariations ex rest
      (p.1, v :: p.2)

/-- The resolved page title for a company name (`none` models the
`if not page` early return of source lines 170-172). -/
def resolve_page (ex : String → Bool) (company_name : String) : Option String :=
  (tryVariations ex (search_variations company_name)).1

/-- The variants the resolution loop actually submitted to the
existence check, in order. -/
def attempted_variations (ex : String → Bool) (company_name : String) : List String :=
  (tryVariations ex (search_variations company_name)).2

/-- The reference-scanning loop of `find_company_logos`
(source lines 205-213): for each image title in order, keep it when
`is_logo_file` passes and the metadata fetch yields a record. -/
def collectLogos (fetch : String → Option LogoCandidate) : List String → List LogoCandidate
  | [] => []
  | t :: rest =>
    if is_logo_file t then
      match fetch t with
      | some info => info :: collectLogos fetch rest
      | none => collectLogos fetch rest
    else collectLogos fetch rest

/-- Embeds `find_company_logos`'s candidate accumulation over one page's image
list, with the per-title Commons metadata response abstracted as `env`. -/
def find_company_logos (env : String → List (List ImageInfo))
    (images : List String) : List LogoCandidate :=
  collectLogos (fun t => get_logo_info t (env t)) images

/-- Externally visible effects of the script, for the frame model of
`main`: printing the usage text, creating a directory, issuing a network
request. -/
inductive Effect where
  | printUsage : Effect
  | createDir : String → Effect
  | netRequest : String → Effect
deriving DecidableEq, Repr

/-- Effect-trace model of `main` (source lines 298-319) together with the
process exit code.  With fewer than two `argv` entries (no company-name
argument) the usage text is printed and the function returns; otherwise
`LogoFetcher.__init__` creates the logo directory (source lines 22-37) and
`run` produces the remaining effects, abstracted as `runEff` applied to the
company names `sys.argv[1:]`.  Python's `main` returns `None` on both
branches, so the exit code is 0 on both. -/
def mainEffects (runEff : List String → List Effect) (argv : List String) :
    List Effect × Nat :=
  if argv.length < 2 then ([Effect.printUsage], 0)
  else (Effect.createDir "./company_logos" :: runEff (argv.drop 1), 0)

/-- Sample accepted PNG metadata record, used in concrete instantiations. -/
def iiPng : ImageInfo := ⟨"u", 10, 10, "image/png", 5⟩

/-- Metadata record whose MIME string contains both `svg` and `png`,
with width below 100. -/
def iiBoth : ImageInfo := ⟨"u", 50, 50, "image/svg+png", 10⟩

/-- Metadata environment answering every title with `iiBoth`. -/
def envBoth : String → List (List ImageInfo) := fun _ => [[iiBoth]]

/-- Metadata environment answering every title with `iiPng`. -/
def envPng : String → List (List ImageInfo) := fun _ => [[iiPng]]

/-- The candidate `find_company_logos envPng ["File:Acme_logo.png"]` yields. -/
def cPng : LogoCandidate := ⟨"u", 10, 10, "image/png", 5, "Acme_logo.png"⟩

/-- Existence check where only the title `Acme Inc.` exists. -/
def exSample : String → Bool := fun s => s == "Acme Inc."

lemma get_logo_info_singleton (title : String) (ii : ImageInfo) :
    (get_logo_info title [[ii]]).isSome = acceptImageInfo ii := by
  cases hA : acceptImageInfo ii <;> simp [get_logo_info, hA]

/-- C1: `get_logo_info` accepts a metadata record and builds a candidate
iff the record's MIME string contains `png`, or it contains `svg` and the
width is at least 100; in particular `image/svg+xml` at width 80 is
rejected, at width 150 accepted, and `image/png` is accepted at every
width. -/
theorem get_logo_info_acceptance (title url mime : String) (w h sz : Nat) :
    ((get_logo_info title [[⟨url, w, h, mime, sz⟩]]).isSome ↔
      (containsSubstr mime "png" = true ∨
        (containsSubstr mime "svg" = true ∧ 100 ≤ w))) ∧
    get_logo_info title [[⟨url, 80, h, "image/svg+xml", sz⟩]] = none ∧
    (get_logo_info title [[⟨url, 150, h, "image/svg+xml", sz⟩]]).isSome = true ∧
    (get_logo_info title [[⟨url, w, h, "image/png", sz⟩]]).isSome = true := by
  refine ⟨?_, ?_, ?_, ?_⟩
  · rw [Option.isSome_iff_exists]
    constructor
    · rintro ⟨c, hc⟩
      have hs : (get_logo_info title [[⟨url, w, h, mime, sz⟩]]).isSome = true := by
        rw [hc]; rfl
      rw [get_logo_info_singleton] at hs
      simpa [acceptImageInfo, Bool.or_eq_true, Bool.and_eq_true,
        decide_eq_true_eq] using hs
    · intro hacc
      have hs : acceptImageInfo ⟨url, w, h, mime, sz⟩ = true := by
        simpa [acceptImageInfo, Bool.or_eq_true, Bool.and_eq_true,
          decide_eq_true_eq] using hacc
      have := get_logo_info_singleton title ⟨url, w, h, mime, sz⟩
      rw [hs, Option.isSome_iff_exists] at this
      exact this
  · have hacc : acceptImageInfo ⟨url, 80, h, "image/svg+xml", sz⟩ = false := by
      show (containsSubstr "image/svg+xml" "png" ||
        (containsSubstr "image/svg+xml" "svg" && decide (100 ≤ 80))) = false
      rfl
    simp [get_logo_info, hacc]
  · have hacc : acceptImageInfo ⟨url, 150, h, "image/svg+xml", sz⟩ = true := by
      show (containsSubstr "image/svg+xml" "png" ||
        (containsSubstr "image/svg+xml" "svg" && decide (100 ≤ 150))) = true
      rfl
    simp [get_logo_info, hacc]
  · have hacc : acceptImageInfo ⟨url, w, h, "image/png", sz⟩ = true := by
      show (containsSubstr "image/png" "png" ||
        (containsSubstr "image/png" "svg" && decide (100 ≤ w))) = true
      have : containsSubstr "image/png" "png" = true := by decide
      rw [this, Bool.true_or]
    simp [get_logo_info, hacc]

/-- C3: a title whose lowercased form contains both an allow-list keyword
and a deny-list keyword is rejected by `is_logo_file`: the deny list
overrides the allow list. -/
theorem is_logo_file_deny_overrides (T : String)
    (_hallow : ∃ k ∈ logo_keywords, containsSubstr (lowerStr T) k = true)
    (hdeny : ∃ k ∈ skip_keywords, containsSubstr (lowerStr T) k = true) :
    is_logo_file T = false := by
  obtain ⟨k, hk, hc⟩ := hdeny
  have hs : skip_keywords.any (fun k => containsSubstr (lowerStr T) k) = true :=
    List.any_eq_true.mpr ⟨k, hk, hc⟩
  simp [is_logo_file, hs]

/-- Witness for C3 at the title `Wikidata_logo.png`. -/
theorem is_logo_file_deny_overrides_witness :
    (∃ k ∈ logo_keywords, containsSubstr (lowerStr "Wikidata_logo.png") k = true) ∧
    (∃ k ∈ skip_keywords, containsSubstr (lowerStr "Wikidata_logo.png") k = true) ∧
    is_logo_file "Wikidata_logo.png" = false :=
  ⟨by decide, by decide,
    is_logo_file_deny_overrides "Wikidata_logo.png" (by decide) (by decide)⟩

/-- C8: a title whose lowercased form ends neither in `.png` nor in `.svg`
is rejected by `is_logo_file`, whatever keywords it contains. -/
theorem is_logo_file_requires_png_svg (T : String)
    (h1 : strEndsWith (lowerStr T) ".png" = false)
    (h2 : strEndsWith (lowerStr T) ".svg" = false) :
    is_logo_file T = false := by
  simp [is_logo_file, h1, h2]

/-- Witness for C8 at the title `Company_Logo.jpg`. -/
theorem is_logo_file_requires_png_svg_witness :
    strEndsWith (lowerStr "Company_Logo.jpg") ".png" = false ∧
    strEndsWith (lowerStr "Company_Logo.jpg") ".svg" = false ∧
    is_logo_file "Company_Logo.jpg" = false :=
  ⟨by decide, by decide,
    is_logo_file_requires_png_svg "Company_Logo.jpg" (by decide) (by decide)⟩

/-- C4: the resolution step tries exactly the ordered variant list, returns
the first variant that exists without testing any later one (here: only the
third variant exists, so it is returned and the fourth is never attempted),
and returns `none` when no variant exists. -/
theorem find_company_logos_name_resolution (ex : String → Bool) (name : String)
    (h1 : ex name = false)
    (h2 : ex (name ++ ", Inc.") = false)
    (h3 : ex (name ++ " Inc.") = true) :
    resolve_page ex name = some (name ++ " Inc.") ∧
    attempted_variations ex name = [name, name ++ ", Inc.", name ++ " Inc."] ∧
    ("The " ++ name ++ " Company") ∉ attempted_variations ex name ∧
    (∀ g : String → Bool, (∀ v ∈ search_variations name, g v = false) →
      resolve_page g name = none) := by
  have e2 : attempted_variations ex name = [name, name ++ ", Inc.", name ++ " Inc."] := by
    simp [attempted_variations, tryVariations, search_variations, h1, h2, h3]
  refine ⟨?_, e2, ?_, ?_⟩
  · simp [resolve_page, tryVariations, search_variations, h1, h2, h3]
  · rw [e2]
    intro hmem
    have hThe : ("The " : String).length = 4 := rfl
    have hComp : (" Company" : String).length = 8 := rfl
    have hInc1 : ((", Inc.") : String).length = 6 := rfl
    have hInc2 : ((" Inc.") : String).length = 5 := rfl
    simp only [List.mem_cons, List.not_mem_nil, or_false] at hmem
    rcases hmem with h | h | h <;> have hl := congrArg String.length h <;>
      simp only [String.length_append, hThe, hComp, hInc1, hInc2] at hl <;> omega
  · intro g hg
    have g1 : g name = false := hg name (by simp [search_variations])
    have g2 : g (name ++ ", Inc.") = false := hg _ (by simp [search_variations])
    have g3 : g (name ++ " Inc.") = false := hg _ (by simp [search_variations])
    have g4 : g ("The " ++ name ++ " Company") = false := hg _ (by simp [search_variations])
    simp [resolve_page, tryVariations, search_variations, g1, g2, g3, g4]

/-- Witness for C4 with the name `Acme` and an existence check satisfied
only by `Acme Inc.`. -/
theorem find_company_logos_name_resolution_witness :
    exSample "Acme" = false ∧ exSample ("Acme" ++ ", Inc.") = false ∧
    exSample ("Acme" ++ " Inc.") = true ∧
    (resolve_page exSample "Acme" = some ("Acme" ++ " Inc.") ∧
     attempted_variations exSample "Acme" = ["Acme", "Acme" ++ ", Inc.", "Acme" ++ " Inc."] ∧
     ("The " ++ "Acme" ++ " Company") ∉ attempted_variations exSample "Acme" ∧
     (∀ g : String → Bool, (∀ v ∈ search_variations "Acme", g v = false) →
       resolve_page g "Acme" = none)) :=
  ⟨by decide, by decide, by decide,
    find_company_logos_name_resolution exSample "Acme" (by decide) (by decide) (by decide)⟩

lemma collectLogos_eq_filterMap (fetch : String → Option LogoCandidate)
    (images : List String) :
    collectLogos fetch images = (images.filter is_logo_file).filterMap fetch := by
  induction images with
  | nil => rfl
  | cons t rest ih =>
    by_cases hcl : is_logo_file t
    · cases hfetch : fetch t <;>
        simp [collectLogos, List.filter_cons, List.filterMap_cons, hcl, hfetch, ih]
    · simp [collectLogos, List.filter_cons, hcl, ih]

/-- C5: the pipeline's candidate sequence is exactly the in-order
subsequence of references that pass `is_logo_file` and then yield a record
from `get_logo_info` — no re-sorting and no early termination. -/
theorem find_company_logos_order (env : String → List (List ImageInfo))
    (images : List String) :
    find_company_logos env images =
      (images.filter is_logo_file).filterMap (fun t => get_logo_info t (env t)) :=
  collectLogos_eq_filterMap _ images

lemma collectLogos_mem (fetch : String → Option LogoCandidate) :
    ∀ (images : List String) (c : LogoCandidate), c ∈ collectLogos fetch images →
      ∃ t, t ∈ images ∧ is_logo_file t = true ∧ fetch t = some c := by
  intro images
  induction images with
  | nil => intro c hc; simp [collectLogos] at hc
  | cons t rest ih =>
    intro c hc
    rw [collectLogos_eq_filterMap] at hc
    rw [List.filter_cons] at hc
    by_cases hcl : is_logo_file t
    · rw [if_pos (by simpa using hcl), List.filterMap_cons] at hc
      cases hfetch : fetch t with
      | none =>
        rw [hfetch] at hc
        obtain ⟨u, hu, h1, h2⟩ := ih c (by rwa [collectLogos_eq_filterMap])
        exact ⟨u, List.mem_cons_of_mem t hu, h1, h2⟩
      | some info =>
        rw [hfetch] at hc
        rcases List.mem_cons.mp hc with h | h
        · exact ⟨t, List.mem_cons_self t rest, by simpa using hcl, by rw [hfetch, h]⟩
        · obtain ⟨u, hu, h1, h2⟩ := ih c (by rwa [collectLogos_eq_filterMap])
          exact ⟨u, List.mem_cons_of_mem t hu, h1, h2⟩
    · rw [if_neg (by simpa using hcl)] at hc
      obtain ⟨u, hu, h1, h2⟩ := ih c (by rwa [collectLogos_eq_filterMap])
      exact ⟨u, List.mem_cons_of_mem t hu, h1, h2⟩

lemma get_logo_info_accept (title : String) :
    ∀ (pages : List (List ImageInfo)) (c : LogoCandidate),
      get_logo_info title pages = some c →
      (containsSubstr c.mime "png" ||
        (containsSubstr c.mime "svg" && decide (100 ≤ c.width))) = true := by
  intro pages
  induction pages with
  | nil => intro c h; simp [get_logo_info] at h
  | cons page rest ih =>
    intro c h
    cases page with
    | nil =>
      simp only [get_logo_info] at h
      exact ih c h
    | cons ii tl =>
      simp only [get_logo_info] at h
      split at h
      · injection h with h
        rw [← h]
        rename_i hacc
        simpa [acceptImageInfo] using hacc
      · exact ih c h

lemma get_logo_info_filename_eq (title : String) :
    ∀ (pages : List (List ImageInfo)) (c : LogoCandidate),
      get_logo_info title pages = some c →
      c.filename = String.mk (removeFileTokens title.data) := by
  intro pages
  induction pages with
  | nil => intro c h; simp [get_logo_info] at h
  | cons page rest ih =>
    intro c h
    cases page with
    | nil =>
      simp only [get_logo_info] at h
      exact ih c h
    | cons ii tl =>
      simp only [get_logo_info] at h
      split at h
      · injection h with h
        rw [← h]
      · exact ih c h

lemma is_logo_file_true_elim (t : String) (h : is_logo_file t = true) :
    (∀ k ∈ skip_keywords, containsSubstr (lowerStr t) k = false) ∧
    (strEndsWith (lowerStr t) ".png" = true ∨ strEndsWith (lowerStr t) ".svg" = true) := by
  simp only [is_logo_file, Bool.and_eq_true, Bool.not_eq_true'] at h
  obtain ⟨⟨-, hext⟩, hskip⟩ := h
  constructor
  · intro k hk
    cases hcontain : containsSubstr (lowerStr t) k with
    | false => rfl
    | true =>
      have : skip_keywords.any (fun k => containsSubstr (lowerStr t) k) = true :=
        List.any_eq_true.mpr ⟨k, hk, hcontain⟩
      rw [this] at hskip
      exact absurd hskip (by simp)
  · exact Bool.or_eq_true _ _ |>.mp hext

/-- C2 (amended): every candidate the pipeline produces has a MIME string
containing `png` or `svg`; if it contains `svg` and does NOT contain `png`,
its width is at least 100 (a MIME string containing both substrings is
accepted at any width, whatever its `svg` substring says); and each
candidate comes from a title that passed `is_logo_file`, hence contains no
deny-list keyword and ends in `.png` or `.svg`. -/
theorem logo_candidate_invariant (env : String → List (List ImageInfo))
    (images : List String) (c : LogoCandidate)
    (hc : c ∈ find_company_logos env images) :
    (containsSubstr c.mime "png" = true ∨ containsSubstr c.mime "svg" = true) ∧
    (containsSubstr c.mime "png" = false →
      containsSubstr c.mime "svg" = true ∧ 100 ≤ c.width) ∧
    ∃ t, t ∈ images ∧ is_logo_file t = true ∧
      (∀ k ∈ skip_keywords, containsSubstr (lowerStr t) k = false) ∧
      (strEndsWith (lowerStr t) ".png" = true ∨ strEndsWith (lowerStr t) ".svg" = true) ∧
      get_logo_info t (env t) = some c := by
  obtain ⟨t, htmem, hcl, hfetch⟩ := collectLogos_mem _ images c hc
  have hacc := get_logo_info_accept t (env t) c hfetch
  have helim := is_logo_file_true_elim t hcl
  refine ⟨?_, ?_, t, htmem, hcl, helim.1, helim.2, hfetch⟩
  · cases hpng : containsSubstr c.mime "png" with
    | true => exact Or.inl rfl
    | false =>
      rw [hpng, Bool.false_or, Bool.and_eq_true] at hacc
      exact Or.inr hacc.1
  · intro hpng
    rw [hpng, Bool.false_or, Bool.and_eq_true, decide_eq_true_eq] at hacc
    exact hacc

/-- Counterexample to C2 as stated: a record whose MIME string contains
both `png` and `svg` is accepted at width 50, so the pipeline produces a
candidate whose MIME contains `svg` with width below 100. -/
theorem logo_candidate_invariant_counterexample :
    ∃ c, c ∈ find_company_logos envBoth ["File:Acme_logo.svg"] ∧
      containsSubstr c.mime "svg" = true ∧ c.width < 100 := by
  refine ⟨⟨"u", 50, 50, "image/svg+png", 10, "Acme_logo.svg"⟩, ?_, by decide, by decide⟩
  decide

/-- Witness for C2 (amended) on a pipeline run over one PNG reference. -/
theorem logo_candidate_invariant_witness :
    cPng ∈ find_company_logos envPng ["File:Acme_logo.png"] ∧
    ((containsSubstr cPng.mime "png" = true ∨ containsSubstr cPng.mime "svg" = true) ∧
     (containsSubstr cPng.mime "png" = false →
       containsSubstr cPng.mime "svg" = true ∧ 100 ≤ cPng.width) ∧
     ∃ t, t ∈ ["File:Acme_logo.png"] ∧ is_logo_file t = true ∧
       (∀ k ∈ skip_keywords, containsSubstr (lowerStr t) k = false) ∧
       (strEndsWith (lowerStr t) ".png" = true ∨ strEndsWith (lowerStr t) ".svg" = true) ∧
       get_logo_info t (envPng t) = some cPng) :=
  ⟨by decide, logo_candidate_invariant envPng ["File:Acme_logo.png"] cPng (by decide)⟩

/-- C6 (amended): the candidate's display filename is the media title with
every (left-to-right, non-overlapping) occurrence of `File:` removed — not
only a leading one, since Python's `str.replace` substitutes all
occurrences. -/
theorem get_logo_info_filename (title : String) (pages : List (List ImageInfo))
    (c : LogoCandidate) (h : get_logo_info title pages = some c) :
    c.filename = String.mk (removeFileTokens title.data) :=
  get_logo_info_filename_eq title pages c h

/-- Counterexample to C6 as stated: for the title `File:Logo_File:2.png`
the code's filename is `Logo_2.png` — the interior `File:` is removed too,
not preserved as the claim requires. -/
theorem get_logo_info_filename_counterexample :
    ∃ c, get_logo_info "File:Logo_File:2.png" [[iiPng]] = some c ∧
      c.filename ≠ "Logo_File:2.png" ∧ c.filename = "Logo_2.png" := by
  refine ⟨⟨"u", 10, 10, "image/png", 5, "Logo_2.png"⟩, by decide, by decide, rfl⟩

/-- Witness for C6 (amended) at the title `File:X_logo.png`. -/
theorem get_logo_info_filename_witness :
    get_logo_info "File:X_logo.png" [[iiPng]] =
      some ⟨"u", 10, 10, "image/png", 5, "X_logo.png"⟩ ∧
    (⟨"u", 10, 10, "image/png", 5, "X_logo.png"⟩ : LogoCandidate).filename =
      String.mk (removeFileTokens ("File:X_logo.png").data) :=
  ⟨by decide, get_logo_info_filename "File:X_logo.png" [[iiPng]] _ (by decide)⟩

lemma mem_collapseRuns :
    ∀ (l : List Char) (b : Bool) (c : Char), c ∈ collapseRuns b l →
      c = '_' ∨ (c ∈ l ∧ isDashSpace c = false) := by
  intro l
  induction l with
  | nil => intro b c hc; simp [collapseRuns] at hc
  | cons a as ih =>
    intro b c hc
    simp only [collapseRuns] at hc
    by_cases hds : isDashSpace a
    · rw [if_pos (by simpa using hds)] at hc
      cases b with
      | true =>
        rcases ih true c hc with h | ⟨h1, h2⟩
        · exact Or.inl h
        · exact Or.inr ⟨List.mem_cons_of_mem a h1, h2⟩
      | false =>
        rcases List.mem_cons.mp hc with h | h
        · exact Or.inl h
        · rcases ih true c h with h | ⟨h1, h2⟩
          · exact Or.inl h
          · exact Or.inr ⟨List.mem_cons_of_mem a h1, h2⟩
    · rw [if_neg (by simpa using hds)] at hc
      rcases List.mem_cons.mp hc with h | h
      · subst h
        exact Or.inr ⟨List.mem_cons_self _ _, by simpa using hds⟩
      · rcases ih false c h with h | ⟨h1, h2⟩
        · exact Or.inl h
        · exact Or.inr ⟨List.mem_cons_of_mem a h1, h2⟩

lemma sanitize_filename_data (name : String) :
    (sanitize_filename name).data =
      (collapseRuns false
        (name.data.filter (fun c => isWordChar c || isSpaceChar c || c == '-'))).take 50 :=
  rfl

lemma sanitize_filename_word (name : String) :
    ∀ c ∈ (sanitize_filename name).data, isWordChar c = true := by
  intro c hc
  rw [sanitize_filename_data] at hc
  have hc' := List.take_subset 50 _ hc
  rcases mem_collapseRuns _ false c hc' with h | ⟨h1, h2⟩
  · subst h; rfl
  · have hp := (List.mem_filter.mp h1).2
    simp only [isDashSpace, Bool.or_eq_false_iff, beq_eq_false_iff_ne] at h2
    simp only [Bool.or_eq_true, beq_iff_eq] at hp
    rcases hp with (h | h) | h
    · exact h
    · rw [h2.2] at h
      exact absurd h (by simp)
    · exact absurd h h2.1

lemma sanitize_filename_length (name : String) :
    (sanitize_filename name).length ≤ 50 := by
  show (sanitize_filename name).data.length ≤ 50
  rw [sanitize_filename_data]
  exact List.length_take_le 50 _

/-- C7: the sanitized folder name contains only word characters
(alphanumeric or underscore), is at most 50 characters long, and the
sanitized form of `Coca-Cola, Inc.` contains no comma and no period. -/
theorem sanitize_filename_safe (name : String) :
    (∀ c ∈ (sanitize_filename name).data, isWordChar c = true) ∧
    (sanitize_filename name).length ≤ 50 ∧
    ',' ∉ (sanitize_filename "Coca-Cola, Inc.").data ∧
    '.' ∉ (sanitize_filename "Coca-Cola, Inc.").data :=
  ⟨sanitize_filename_word name, sanitize_filename_length name, by decide, by decide⟩

lemma collapseRuns_of_no_dashspace :
    ∀ (l : List Char), (∀ c ∈ l, isDashSpace c = false) → ∀ b, collapseRuns b l = l := by
  intro l
  induction l with
  | nil => intro _ b; rfl
  | cons a as ih =>
    intro h b
    have ha : isDashSpace a = false := h a (List.mem_cons_self a as)
    simp only [collapseRuns]
    rw [if_neg (by simp [ha])]
    rw [ih (fun c hc => h c (List.mem_cons_of_mem a hc)) false]

lemma word_not_dashspace (c : Char) (h : isWordChar c = true) :
    isDashSpace c = false := by
  by_contra hds
  rw [Bool.not_eq_false] at hds
  simp only [isDashSpace, isSpaceChar, Bool.or_eq_true, beq_iff_eq, or_assoc] at hds
  rcases hds with h1 | h1 | h1 | h1 | h1 | h1 | h1 <;> subst h1 <;>
    exact absurd h (by decide)

/-- C10: `sanitize_filename` is idempotent — its output consists of word
characters only, is at most 50 characters long, and so passes all three
stages unchanged. -/
theorem sanitize_filename_idem (s : String) :
    sanitize_filename (sanitize_filename s) = sanitize_filename s := by
  have hw := sanitize_filename_word s
  have hfilter :
      (sanitize_filename s).data.filter
        (fun c => isWordChar c || isSpaceChar c || c == '-') =
      (sanitize_filename s).data := by
    rw [List.filter_eq_self]
    intro c hc
    rw [hw c hc]
    rfl
  have hcollapse :
      collapseRuns false (sanitize_filename s).data = (sanitize_filename s).data :=
    collapseRuns_of_no_dashspace _ (fun c hc => word_not_dashspace c (hw c hc)) false
  have htake : (sanitize_filename s).data.take 50 = (sanitize_filename s).data :=
    List.take_of_length_le (sanitize_filename_length s)
  show String.mk
      ((collapseRuns false
        ((sanitize_filename s).data.filter
          (fun c => isWordChar c || isSpaceChar c || c == '-'))).take 50) =
    sanitize_filename s
  rw [hfilter, hcollapse, htake]

/-- C9: with fewer than two `argv` entries (no company-name argument),
`main` prints only the usage text: no directory is created, no network
request is issued, and the exit code is 0 (not an error exit). -/
theorem main_zero_args (runEff : List String → List Effect) (argv : List String)
    (h : argv.length < 2) :
    (mainEffects runEff argv).1 = [Effect.printUsage] ∧
    (∀ d, Effect.createDir d ∉ (mainEffects runEff argv).1) ∧
    (∀ u, Effect.netRequest u ∉ (mainEffects runEff argv).1) ∧
    (mainEffects runEff argv).2 = 0 := by
  simp [mainEffects, h]

/-- Witness for C9 at an `argv` holding only the script name. -/
theorem main_zero_args_witness :
    (["fetch-logos-only.py"] : List String).length < 2 ∧
    ((mainEffects (fun _ => []) ["fetch-logos-only.py"]).1 = [Effect.printUsage] ∧
     (∀ d, Effect.createDir d ∉ (mainEffects (fun _ => []) ["fetch-logos-only.py"]).1) ∧
     (∀ u, Effect.netRequest u ∉ (mainEffects (fun _ => []) ["fetch-logos-only.py"]).1) ∧
     (mainEffects (fun _ => []) ["fetch-logos-only.py"]).2 = 0) :=
  ⟨by decide, main_zero_args (fun _ => []) ["fetch-logos-only.py"] (by decide)⟩
